import Mathlib

/-!
Verification of the sprite-sheet layout-detection and frame-normalization
pipeline of the OCR-Arcade repository.

The pipeline lives in two scripts:
  scripts/pets/detect_pet_layout.py    (find_components)
  scripts/pets/process_pet_sprites.py  (slice_image)

This file gives a shallow embedding of those scripts and proves the spec
claims about them.  Images are modelled as a width, a height and a total
pixel function; masks are flat row-major lists of 0/1 integers exactly as
the source builds them; the flood fill is embedded with an explicit fuel
counter so that its termination within a linear number of steps is itself
a provable statement rather than an assumption.
-/

/-- RGBA pixel with 8-bit channels (values are kept as unbounded naturals;
only the alpha channel is ever inspected by the pipeline). -/
structure Pixel where
  r : Nat
  g : Nat
  b : Nat
  a : Nat
deriving DecidableEq, Repr

/-- Fully transparent black pixel, the background used by PIL for new
transparent canvases and out-of-range crop fill. -/
def Pixel.clear : Pixel := ⟨0, 0, 0, 0⟩

/-- An in-memory RGBA raster: dimensions plus a total pixel function. -/
structure Image where
  width : Nat
  height : Nat
  pixel : Nat → Nat → Pixel

/-- Integer rectangle (x1, y1, x2, y2), half-open on the right and bottom,
matching the 4-element lists used by the source. -/
structure Box where
  x1 : Nat
  y1 : Nat
  x2 : Nat
  y2 : Nat
deriving DecidableEq, Repr

/-- Embedding of PIL Image.crop: the result has size (x2-x1, y2-y1) and
pixel (i, j) is the source pixel (x1+i, y1+j) when that falls inside both
the source image and the crop window, else transparent (PIL pads crops
that extend past the image with zero pixels). -/
def Image.crop (img : Image) (x1 y1 x2 y2 : Nat) : Image :=
  { width := x2 - x1
    height := y2 - y1
    pixel := fun i j =>
      if x1 + i < img.width ∧ y1 + j < img.height ∧ i < x2 - x1 ∧ j < y2 - y1 then
        img.pixel (x1 + i) (y1 + j)
      else Pixel.clear }

/-- Index of the first number below n satisfying p, scanning upward. -/
def firstSuch (p : Nat → Bool) : Nat → Option Nat
  | 0 => none
  | n + 1 =>
    match firstSuch p n with
    | some k => some k
    | none => if p n then some n else none

/-- Index of the last number below n satisfying p. -/
def lastSuch (p : Nat → Bool) : Nat → Option Nat
  | 0 => none
  | n + 1 => if p n then some n else lastSuch p n

/-- Column x of the image holds at least one pixel with positive alpha. -/
def colHasContent (img : Image) (x : Nat) : Bool :=
  (List.range img.height).any (fun y => 0 < (img.pixel x y).a)

/-- Row y of the image holds at least one pixel with positive alpha. -/
def rowHasContent (img : Image) (y : Nat) : Bool :=
  (List.range img.width).any (fun x => 0 < (img.pixel x y).a)

/-- Embedding of PIL Image.getbbox on an RGBA image: the bounding box
(left, upper, right, lower), right and lower exclusive, of all pixels
whose alpha channel is nonzero; none when every pixel is transparent. -/
def Image.getbbox (img : Image) : Option Box :=
  match firstSuch (colHasContent img) img.width,
        firstSuch (rowHasContent img) img.height,
        lastSuch (colHasContent img) img.width,
        lastSuch (rowHasContent img) img.height with
  | some a, some b, some c, some d => some ⟨a, b, c + 1, d + 1⟩
  | _, _, _, _ => none

/-! ## detect_pet_layout.py: occupancy mask -/

/-- Nearest-neighbor sample of the full image for downsampled pixel (x, y)
of a smallW × smallH resize (integer rendering of the source-center
sampling PIL uses for Image.NEAREST). -/
def nearestSample (img : Image) (smallW smallH x y : Nat) : Pixel :=
  img.pixel (((2 * x + 1) * img.width) / (2 * smallW))
            (((2 * y + 1) * img.height) / (2 * smallH))

/-- Downsampled binary occupancy mask: a flat row-major list of 0/1
integers plus its dimensions, exactly as find_components builds it. -/
structure Mask where
  w : Nat
  h : Nat
  data : List Nat

/-- Embedding of the mask construction in find_components: small_w and
small_h are the floor divisions width // scale and height // scale; the
image is resized with nearest-neighbor sampling and a cell is 1 iff the
sampled alpha exceeds 10.  The source hardcodes scale = 2; the scale is a
parameter here so that statements about it can be made. -/
def buildMask (img : Image) (scale : Nat) : Mask :=
  let smallW := img.width / scale
  let smallH := img.height / scale
  { w := smallW
    h := smallH
    data := (List.range (smallW * smallH)).map (fun i =>
      if 10 < (nearestSample img smallW smallH (i % smallW) (i / smallW)).a then 1 else 0) }

/-! ## process_pet_sprites.py -/

/-- Fixed layout table for the 1x4 strip sheets, from the source. -/
structure PetConfig where
  bbox : Box
  count : Nat
deriving DecidableEq, Repr

/-- Embedding of the PET_CONFIGS dictionary. -/
def PET_CONFIGS : List (String × PetConfig) :=
  [("black_bear_walk_v2.png", ⟨⟨12, 188, 444, 269⟩, 4⟩),
   ("salamander_walk.png", ⟨⟨12, 214, 444, 248⟩, 4⟩),
   ("muntjac_walk.png", ⟨⟨12, 177, 446, 280⟩, 4⟩),
   ("hare_walk.png", ⟨⟨13, 168, 448, 289⟩, 4⟩)]

/-- Embedding of the LEOPARD_CAT_COORDS list (2x2 grid rectangles). -/
def LEOPARD_CAT_COORDS : List Box :=
  [⟨10, 105, 221, 210⟩, ⟨235, 105, 446, 210⟩, ⟨14, 254, 231, 359⟩, ⟨219, 254, 442, 359⟩]

/-- Substring test on character lists, embedding the Python expression
needle in haystack. -/
def containsSub (needle hay : List Char) : Bool :=
  hay.tails.any (fun t => needle.isPrefixOf t)

/-- Output canvas side, the TARGET_SIZE constant of the source. -/
def TARGET_SIZE : Nat := 256

/-- Embedding of the centering step of slice_image: a fresh fully
transparent TARGET_SIZE square canvas with the content pasted at offset
((TARGET_SIZE - width) // 2, (TARGET_SIZE - height) // 2), Python floor
division, hence a negative offset for oversized content; PIL paste clips
the pasted content to the canvas. -/
def normalizeFrame (content : Image) : Image :=
  let ox : Int := Int.fdiv ((TARGET_SIZE : Int) - (content.width : Int)) 2
  let oy : Int := Int.fdiv ((TARGET_SIZE : Int) - (content.height : Int)) 2
  { width := TARGET_SIZE
    height := TARGET_SIZE
    pixel := fun x y =>
      if x < TARGET_SIZE ∧ y < TARGET_SIZE ∧
         0 ≤ (x : Int) - ox ∧ (x : Int) - ox < (content.width : Int) ∧
         0 ≤ (y : Int) - oy ∧ (y : Int) - oy < (content.height : Int) then
        content.pixel ((x : Int) - ox).toNat ((y : Int) - oy).toNat
      else Pixel.clear }

/-- Embedding of slice_image.  The observable output is the list of saved
frames together with the frame index each was saved under; an index that
is skipped contributes nothing to the list.  The leopard-cat branch crops
each of the four fixed rectangles and centers the raw crop with no
transparency check; the strip branch crops the configured union box,
splits it into four slices of width uw // 4, and for each slice centers
the tight alpha bounding-box crop, silently skipping slices whose
bounding box is none; any other filename produces no output at all. -/
def slice_image (img : Image) (original_filename : String) : List (Nat × Image) :=
  if containsSub ("leopard_cat_walk".data) original_filename.data then
    LEOPARD_CAT_COORDS.enum.map (fun ic =>
      (ic.1, normalizeFrame (img.crop ic.2.x1 ic.2.y1 ic.2.x2 ic.2.y2)))
  else
    match PET_CONFIGS.lookup original_filename with
    | none => []
    | some config =>
      let union := img.crop config.bbox.x1 config.bbox.y1 config.bbox.x2 config.bbox.y2
      let fw := union.width / 4
      (List.range 4).filterMap (fun i =>
        let strip := union.crop (i * fw) 0 ((i + 1) * fw) union.height
        match strip.getbbox with
        | some bb =>
          some (i, normalizeFrame (strip.crop bb.x1 bb.y1 bb.x2 bb.y2))
        | none => none)

/-! ## Claim C6: mask dimensions -/

/-- Concrete 5 x 4 fully transparent image used to refute claim C6. -/
def imgOdd : Image := ⟨5, 4, fun _ _ => Pixel.clear⟩

/-- Claim C6 counterexample: the mask built from a 5-pixel-wide image at
scale 2 has width 2, not ceil(5 / 2) = 3; the source uses floor division
(width // scale), so the claimed invariant mask.width = ceil(width/scale)
fails at this concrete input. -/
theorem buildMask_width_not_ceil :
    ¬ ((buildMask imgOdd 2).w = (5 + 2 - 1) / 2 ∧ (buildMask imgOdd 2).h = (4 + 2 - 1) / 2) := by
  decide

/-- Claim C6 (amended): for every image and scale, the occupancy mask has
width image.width / scale and height image.height / scale (floor
division, not ceiling), and its flat data has exactly width * height
cells. -/
theorem buildMask_dims (img : Image) (scale : Nat) :
    (buildMask img scale).w = img.width / scale ∧
    (buildMask img scale).h = img.height / scale ∧
    (buildMask img scale).data.length = (img.width / scale) * (img.height / scale) := by
  refine ⟨rfl, rfl, ?_⟩
  simp [buildMask]

/-! ## Claim C10: unknown sheet identity -/

/-- Claim C10: when the filename does not contain "leopard_cat_walk" and
is not a key of PET_CONFIGS, slice_image returns normally (it is a total
function here, and the source path only prints and returns) and saves no
frame at all. -/
theorem slice_image_unknown_filename (img : Image) (name : String)
    (hsub : containsSub ("leopard_cat_walk".data) name.data = false)
    (hlook : PET_CONFIGS.lookup name = none) :
    slice_image img name = [] := by
  unfold slice_image
  rw [hsub, hlook]
  simp

/-- Claim C10 witness: a concrete unknown filename exercises the theorem. -/
theorem slice_image_unknown_filename_witness :
    containsSub ("leopard_cat_walk".data) ("mystery_pet.png".data) = false ∧
    PET_CONFIGS.lookup "mystery_pet.png" = none ∧
    slice_image ⟨456, 300, fun _ _ => Pixel.clear⟩ "mystery_pet.png" = [] :=
  ⟨by decide, by decide,
   slice_image_unknown_filename _ _ (by decide) (by decide)⟩

/-! ## detect_pet_layout.py: morphological dilation -/

/-- Set a single cell of a flat mask to 1, as the source writes
new_mask[n] = 1 (out-of-range writes never occur in the source; List.set
ignores them). -/
def setCell (m : List Nat) (i : Nat) : List Nat := m.set i 1

/-- Conditionally set a cell, mirroring one bounds-checked neighbor write
of the dilation loop. -/
def setCellIf (c : Prop) [Decidable c] (m : List Nat) (i : Nat) : List Nat :=
  if c then setCell m i else m

/-- The four bounds-checked neighbor writes performed for a set cell i in
one dilation pass: left, right, up, down, exactly as the source orders
them. -/
def dilateNeighbors (w h i : Nat) (new : List Nat) : List Nat :=
  setCellIf (i / w < h - 1)
    (setCellIf (0 < i / w)
      (setCellIf (i % w < w - 1)
        (setCellIf (0 < i % w) new (i - 1))
        (i + 1))
      (i - w))
    (i + w)

/-- One dilation pass: the output mask starts as a copy of the input and
every cell that is set in the input mask writes 1 into the four
bounds-checked neighbor cells of the output; the input mask is read
throughout, never the partially written output. -/
def dilateOnce (w h : Nat) (m : List Nat) : List Nat :=
  (List.range m.length).foldl
    (fun new i => if m.getD i 0 = 1 then dilateNeighbors w h i new else new) m

/-- Multi-pass dilation; the source runs three passes. -/
def dilate (w h : Nat) (m : List Nat) : Nat → List Nat
  | 0 => m
  | n + 1 => dilateOnce w h (dilate w h m n)

/-- Cell j is a bounds-checked 4-connected neighbor of cell i in a w x h
row-major grid, in the exact index arithmetic of the source. -/
def neighborStep (w h i j : Nat) : Prop :=
  (0 < i % w ∧ i - 1 = j) ∨ (i % w < w - 1 ∧ i + 1 = j) ∨
  (0 < i / w ∧ i - w = j) ∨ (i / w < h - 1 ∧ i + w = j)

theorem listGetDDefault {α : Type} (l : List α) (n : Nat) (d : α) (h : l.length ≤ n) :
    l.getD n d = d := by
  induction l generalizing n with
  | nil => simp [List.getD]
  | cons x t ih =>
    cases n with
    | zero => simp at h
    | succ k => simpa [List.getD] using ih k (by simpa using h)

theorem listGetDSetSelf {α : Type} (l : List α) (n : Nat) (a d : α) (h : n < l.length) :
    (l.set n a).getD n d = a := by
  induction l generalizing n with
  | nil => simp at h
  | cons x t ih =>
    cases n with
    | zero => simp [List.getD]
    | succ k => simpa [List.getD] using ih k (by simpa using h)

theorem listGetDSetNe {α : Type} (l : List α) (n m : Nat) (a d : α) (h : n ≠ m) :
    (l.set n a).getD m d = l.getD m d := by
  induction l generalizing n m with
  | nil => simp
  | cons x t ih =>
    cases n with
    | zero => cases m with
      | zero => exact absurd rfl h
      | succ j => simp [List.getD]
    | succ k => cases m with
      | zero => simp [List.getD]
      | succ j => simpa [List.getD] using ih k j (by omega)

theorem setCell_length (m : List Nat) (i : Nat) : (setCell m i).length = m.length := by
  simp [setCell]

theorem getD_setCell (m : List Nat) (i j : Nat) :
    ((setCell m i).getD j 0 = 1) ↔ (m.getD j 0 = 1 ∨ (i = j ∧ j < m.length)) := by
  by_cases hij : i = j
  · subst hij
    by_cases hlen : i < m.length
    · rw [setCell, listGetDSetSelf m i 1 0 hlen]
      simp [hlen]
    · rw [setCell, List.set_eq_of_length_le (by omega)]
      simp [hlen]
  · rw [setCell, listGetDSetNe m i j 1 0 hij]
    simp [hij]

theorem setCellIf_length (c : Prop) [Decidable c] (m : List Nat) (i : Nat) :
    (setCellIf c m i).length = m.length := by
  unfold setCellIf
  split <;> simp [setCell_length]

theorem getD_setCellIf (c : Prop) [Decidable c] (m : List Nat) (i j : Nat) :
    ((setCellIf c m i).getD j 0 = 1) ↔ (m.getD j 0 = 1 ∨ (c ∧ i = j ∧ j < m.length)) := by
  unfold setCellIf
  split
  · rw [getD_setCell]
    tauto
  · tauto

theorem dilateNeighbors_length (w h i : Nat) (new : List Nat) :
    (dilateNeighbors w h i new).length = new.length := by
  simp [dilateNeighbors, setCellIf_length]

theorem getD_dilateNeighbors (w h i : Nat) (new : List Nat) (j : Nat) :
    ((dilateNeighbors w h i new).getD j 0 = 1) ↔
      (new.getD j 0 = 1 ∨ (j < new.length ∧ neighborStep w h i j)) := by
  unfold dilateNeighbors neighborStep
  rw [getD_setCellIf, getD_setCellIf, getD_setCellIf, getD_setCellIf]
  simp only [setCellIf_length]
  tauto

theorem foldl_dilate_length (m : List Nat) (w h : Nat) (idxs : List Nat) (acc : List Nat) :
    ((idxs.foldl (fun new i => if m.getD i 0 = 1 then dilateNeighbors w h i new else new) acc).length
      = acc.length) := by
  induction idxs generalizing acc with
  | nil => rfl
  | cons i t ih =>
    rw [List.foldl_cons, ih]
    split <;> simp [dilateNeighbors_length]

theorem foldl_dilate_char (m : List Nat) (w h j : Nat) (idxs : List Nat) (acc : List Nat) :
    ((idxs.foldl (fun new i => if m.getD i 0 = 1 then dilateNeighbors w h i new else new) acc).getD j 0 = 1 ↔
      (acc.getD j 0 = 1 ∨ ∃ i ∈ idxs, m.getD i 0 = 1 ∧ j < acc.length ∧ neighborStep w h i j)) := by
  induction idxs generalizing acc with
  | nil => simp
  | cons i t ih =>
    rw [List.foldl_cons, ih]
    by_cases hm : m.getD i 0 = 1
    · simp only [hm, if_pos, getD_dilateNeighbors, dilateNeighbors_length, List.mem_cons]
      constructor
      · rintro ((h1 | ⟨hj, hn⟩) | ⟨i2, hi2, h1, hj, hn⟩)
        · exact Or.inl h1
        · exact Or.inr ⟨i, Or.inl rfl, hm, hj, hn⟩
        · exact Or.inr ⟨i2, Or.inr hi2, h1, hj, hn⟩
      · rintro (h1 | ⟨i2, (rfl | hi2), h1, hj, hn⟩)
        · exact Or.inl (Or.inl h1)
        · exact Or.inl (Or.inr ⟨hj, hn⟩)
        · exact Or.inr ⟨i2, hi2, h1, hj, hn⟩
    · simp only [hm, if_neg, List.mem_cons]
      constructor
      · rintro (h1 | ⟨i2, hi2, h1, hj, hn⟩)
        · exact Or.inl h1
        · exact Or.inr ⟨i2, Or.inr hi2, h1, hj, hn⟩
      · rintro (h1 | ⟨i2, (rfl | hi2), h1, hj, hn⟩)
        · exact Or.inl h1
        · exact absurd h1 hm
        · exact Or.inr ⟨i2, hi2, h1, hj, hn⟩

theorem dilateOnce_length (w h : Nat) (m : List Nat) :
    (dilateOnce w h m).length = m.length := by
  unfold dilateOnce
  exact foldl_dilate_length m w h _ m

theorem dilateOnce_char (w h : Nat) (m : List Nat) (j : Nat) :
    ((dilateOnce w h m).getD j 0 = 1 ↔
      (m.getD j 0 = 1 ∨ ∃ i, i < m.length ∧ m.getD i 0 = 1 ∧ j < m.length ∧ neighborStep w h i j)) := by
  unfold dilateOnce
  rw [foldl_dilate_char]
  simp [List.mem_range]

theorem dilate_length (w h : Nat) (m : List Nat) (n : Nat) :
    (dilate w h m n).length = m.length := by
  induction n with
  | zero => rfl
  | succ k ih => rw [dilate, dilateOnce_length, ih]

/-- Claim C7: dilation is monotone (a pass never clears a set cell), and
each pass is computed pointwise from the previous pass taken as a whole:
a cell is set after pass n+1 iff it was set after pass n or some cell set
after pass n has it as a bounds-checked 4-connected neighbor (one cell of
growth in each direction, no direction bias from partial writes). -/
theorem dilate_monotone_and_single_step (w h : Nat) (m : List Nat) (n : Nat) :
    (∀ j, (dilate w h m n).getD j 0 = 1 → (dilate w h m (n + 1)).getD j 0 = 1) ∧
    (∀ j, ((dilate w h m (n + 1)).getD j 0 = 1 ↔
      ((dilate w h m n).getD j 0 = 1 ∨
        ∃ i, i < m.length ∧ (dilate w h m n).getD i 0 = 1 ∧ j < m.length ∧ neighborStep w h i j))) := by
  constructor
  · intro j hj
    rw [dilate, dilateOnce_char]
    exact Or.inl hj
  · intro j
    rw [dilate, dilateOnce_char, dilate_length]

/-! ## detect_pet_layout.py: connected components via iterative flood fill -/

/-- State of one iterative flood fill: the global visited array, the
explicit stack, the running bounding box, and a ghost trace of every cell
ever pushed (the source has no such trace; it is carried only so that the
no-duplicate-push property can be stated). -/
structure FillState where
  visited : List Bool
  stack : List Nat
  minX : Nat
  maxX : Nat
  minY : Nat
  maxY : Nat
  pushed : List Nat

/-- One candidate push: if the neighbor cell is set in the mask and not
yet visited, it is marked visited at this very moment and pushed onto the
stack, exactly as the inner neighbor loop of find_components does. -/
def pushStep (mask : List Nat) (s : FillState) (n : Nat) : FillState :=
  if mask.getD n 0 = 1 ∧ s.visited.getD n false = false then
    { s with visited := s.visited.set n true, stack := n :: s.stack, pushed := n :: s.pushed }
  else s

/-- The bounds-checked 4-connected neighbor list of a cell, in the order
the source builds it (left, right, up, down). -/
def neighborsOf (w h curr : Nat) : List Nat :=
  (if 0 < curr % w then [curr - 1] else []) ++
  (if curr % w < w - 1 then [curr + 1] else []) ++
  (if 0 < curr / w then [curr - w] else []) ++
  (if curr / w < h - 1 then [curr + w] else [])

/-- The while-stack loop of the flood fill, with an explicit fuel counter
standing in for the unbounded Python while loop: pop a cell, fold it into
the running bounding box, then try to push each bounds-checked neighbor.
Termination within the fuel supplied by the caller is proved below, not
assumed. -/
def fillLoop (mask : List Nat) (w h : Nat) : Nat → FillState → FillState
  | 0, s => s
  | fuel + 1, s =>
    match s.stack with
    | [] => s
    | curr :: rest =>
      let s1 : FillState :=
        { s with stack := rest,
                 minX := min s.minX (curr % w), maxX := max s.maxX (curr % w),
                 minY := min s.minY (curr / w), maxY := max s.maxY (curr / w) }
      fillLoop mask w h fuel ((neighborsOf w h curr).foldl (pushStep mask) s1)

/-- Component emission: rescale the mask-space bounding box by the scale
factor (right and bottom edges as (max+1) * scale) and keep it only when
both full-image dimensions strictly exceed 20 pixels. -/
def emitComponent (scale minX minY maxX maxY : Nat) : Option Box :=
  let comp : Box := ⟨minX * scale, minY * scale, (maxX + 1) * scale, (maxY + 1) * scale⟩
  if 20 < comp.x2 - comp.x1 ∧ 20 < comp.y2 - comp.y1 then some comp else none

/-- State of the outer row-major scan: visited array, emitted components,
the ghost push trace, and a ghost flag recording that every flood fill so
far drained its stack within its fuel. -/
structure LabelState where
  visited : List Bool
  components : List Box
  pushed : List Nat
  ok : Bool

/-- One step of the outer scan of find_components: a set, unvisited cell
starts a new component; it is marked visited as it is pushed, the flood
fill runs, and the rescaled bounding box is emitted when it passes the
size filter. -/
def labelStep (mask : List Nat) (w h scale : Nat) (st : LabelState) (i : Nat) : LabelState :=
  if mask.getD i 0 = 1 ∧ st.visited.getD i false = false then
    let s1 := fillLoop mask w h (2 * (w * h) + 1)
      ⟨st.visited.set i true, [i], i % w, i % w, i / w, i / w, i :: st.pushed⟩
    { visited := s1.visited
      components := st.components ++
        (match emitComponent scale s1.minX s1.minY s1.maxX s1.maxY with
         | some c => [c]
         | none => [])
      pushed := s1.pushed
      ok := st.ok && s1.stack.isEmpty }
  else st

/-- The full connected-component labeling pass of find_components over a
flat w x h mask. -/
def labelComponents (mask : List Nat) (w h scale : Nat) : LabelState :=
  (List.range (w * h)).foldl (labelStep mask w h scale)
    ⟨List.replicate (w * h) false, [], [], true⟩

/-- Number of unvisited cells. -/
def countFalse : List Bool → Nat
  | [] => 0
  | b :: t => (if b then 0 else 1) + countFalse t

/-- Termination measure of the flood fill: twice the unvisited count plus
the stack height.  Every loop iteration strictly decreases it. -/
def fillMeasure (s : FillState) : Nat := 2 * countFalse s.visited + s.stack.length

theorem countFalse_le_length (l : List Bool) : countFalse l ≤ l.length := by
  induction l with
  | nil => simp [countFalse]
  | cons b t ih =>
    simp only [countFalse, List.length_cons]
    split <;> omega

theorem countFalse_set_true (l : List Bool) (n : Nat) (hn : n < l.length)
    (hf : l.getD n false = false) : countFalse l = countFalse (l.set n true) + 1 := by
  induction l generalizing n with
  | nil => simp at hn
  | cons b t ih =>
    cases n with
    | zero =>
      have hb : b = false := by simpa [List.getD] using hf
      subst hb
      rw [show ((false :: t).set 0 true) = true :: t from rfl]
      show 1 + countFalse t = 0 + countFalse t + 1
      omega
    | succ k =>
      have hk : k < t.length := by simpa using hn
      have hf2 : t.getD k false = false := by simpa [List.getD] using hf
      simp only [List.set, countFalse]
      rw [ih k hk hf2]
      omega

theorem getD_one_lt_length (m : List Nat) (n : Nat) (h : m.getD n 0 = 1) : n < m.length := by
  by_contra hn
  rw [listGetDDefault m n 0 (by omega)] at h
  omega

theorem pushStep_visited_length (mask : List Nat) (s : FillState) (n : Nat) :
    (pushStep mask s n).visited.length = s.visited.length := by
  unfold pushStep
  split <;> simp

theorem pushStep_minmax (mask : List Nat) (s : FillState) (n : Nat) :
    (pushStep mask s n).minX = s.minX ∧ (pushStep mask s n).maxX = s.maxX ∧
    (pushStep mask s n).minY = s.minY ∧ (pushStep mask s n).maxY = s.maxY := by
  unfold pushStep
  split <;> simp

theorem pushStep_measure (mask : List Nat) (s : FillState) (n : Nat)
    (hlen : mask.length = s.visited.length) :
    fillMeasure (pushStep mask s n) ≤ fillMeasure s := by
  unfold pushStep
  split
  · next hcond =>
    have hn : n < s.visited.length := hlen ▸ getD_one_lt_length mask n hcond.1
    have := countFalse_set_true s.visited n hn hcond.2
    simp only [fillMeasure, List.length_cons]
    omega
  · exact le_refl _

/-- Invariant carried through one flood fill: the visited array matches
the mask in length, the push trace has no duplicates, every pushed cell
is (and stays) visited and in range. -/
def FillInv (mask : List Nat) (s : FillState) : Prop :=
  mask.length = s.visited.length ∧ s.pushed.Nodup ∧
  (∀ c ∈ s.pushed, s.visited.getD c false = true) ∧
  (∀ c ∈ s.pushed, c < mask.length)

theorem pushStep_inv (mask : List Nat) (s : FillState) (n : Nat) (h : FillInv mask s) :
    FillInv mask (pushStep mask s n) := by
  obtain ⟨hlen, hnd, hvis, hbnd⟩ := h
  unfold pushStep
  split
  · next hcond =>
    have hn : n < mask.length := getD_one_lt_length mask n hcond.1
    have hnotin : n ∉ s.pushed := by
      intro hmem
      rw [hvis n hmem] at hcond
      exact absurd hcond.2 (by simp)
    refine ⟨by simpa using hlen, by simpa using ⟨hnotin, hnd⟩, ?_, ?_⟩
    · intro c hc
      rcases List.mem_cons.mp hc with rfl | hc2
      · exact listGetDSetSelf s.visited c true false (by omega)
      · by_cases hcn : n = c
        · subst hcn
          exact listGetDSetSelf s.visited n true false (by omega)
        · rw [listGetDSetNe s.visited n c true false hcn]
          exact hvis c hc2
    · intro c hc
      rcases List.mem_cons.mp hc with rfl | hc2
      · exact hn
      · exact hbnd c hc2
  · exact ⟨hlen, hnd, hvis, hbnd⟩

theorem foldl_pushStep_visited_length (mask : List Nat) (ns : List Nat) (s : FillState) :
    (ns.foldl (pushStep mask) s).visited.length = s.visited.length := by
  induction ns generalizing s with
  | nil => rfl
  | cons n t ih => rw [List.foldl_cons, ih, pushStep_visited_length]

theorem foldl_pushStep_minmax (mask : List Nat) (ns : List Nat) (s : FillState) :
    (ns.foldl (pushStep mask) s).minX = s.minX ∧ (ns.foldl (pushStep mask) s).maxX = s.maxX ∧
    (ns.foldl (pushStep mask) s).minY = s.minY ∧ (ns.foldl (pushStep mask) s).maxY = s.maxY := by
  induction ns generalizing s with
  | nil => exact ⟨rfl, rfl, rfl, rfl⟩
  | cons n t ih =>
    rw [List.foldl_cons]
    obtain ⟨h1, h2, h3, h4⟩ := ih (pushStep mask s n)
    obtain ⟨g1, g2, g3, g4⟩ := pushStep_minmax mask s n
    exact ⟨h1.trans g1, h2.trans g2, h3.trans g3, h4.trans g4⟩

theorem foldl_pushStep_measure (mask : List Nat) (ns : List Nat) (s : FillState)
    (hlen : mask.length = s.visited.length) :
    fillMeasure (ns.foldl (pushStep mask) s) ≤ fillMeasure s := by
  induction ns generalizing s with
  | nil => exact le_refl _
  | cons n t ih =>
    rw [List.foldl_cons]
    have h2 : mask.length = (pushStep mask s n).visited.length := by
      rw [pushStep_visited_length]; exact hlen
    exact le_trans (ih (pushStep mask s n) h2) (pushStep_measure mask s n hlen)

theorem foldl_pushStep_inv (mask : List Nat) (ns : List Nat) (s : FillState)
    (h : FillInv mask s) : FillInv mask (ns.foldl (pushStep mask) s) := by
  induction ns generalizing s with
  | nil => exact h
  | cons n t ih => exact ih (pushStep mask s n) (pushStep_inv mask s n h)

theorem fillLoop_stack_empty (mask : List Nat) (w h : Nat) (fuel : Nat) (s : FillState)
    (hlen : mask.length = s.visited.length) (hfuel : fillMeasure s ≤ fuel) :
    (fillLoop mask w h fuel s).stack = [] := by
  induction fuel generalizing s with
  | zero =>
    have : s.stack.length = 0 := by
      simp only [fillMeasure] at hfuel
      omega
    have hnil : s.stack = [] := List.length_eq_zero.mp this
    simp [fillLoop, hnil]
  | succ f ih =>
    unfold fillLoop
    cases hs : s.stack with
    | nil => exact hs
    | cons curr rest =>
      apply ih
      · rw [foldl_pushStep_visited_length]
        exact hlen
      · refine le_trans (foldl_pushStep_measure mask _ _ hlen) ?_
        have hms : fillMeasure s = 2 * countFalse s.visited + rest.length + 1 := by
          simp only [fillMeasure, hs, List.length_cons]
          omega
        simp only [fillMeasure] at hfuel hms ⊢
        omega

theorem fillLoop_inv (mask : List Nat) (w h : Nat) (fuel : Nat) (s : FillState)
    (hinv : FillInv mask s) : FillInv mask (fillLoop mask w h fuel s) := by
  induction fuel generalizing s with
  | zero => exact hinv
  | succ f ih =>
    unfold fillLoop
    cases hs : s.stack with
    | nil => exact hinv
    | cons curr rest =>
      apply ih
      apply foldl_pushStep_inv
      exact ⟨hinv.1, hinv.2.1, hinv.2.2.1, hinv.2.2.2⟩

theorem fillLoop_minmax_le (mask : List Nat) (w h : Nat) (fuel : Nat) (s : FillState)
    (hx : s.minX ≤ s.maxX) (hy : s.minY ≤ s.maxY) :
    (fillLoop mask w h fuel s).minX ≤ (fillLoop mask w h fuel s).maxX ∧
    (fillLoop mask w h fuel s).minY ≤ (fillLoop mask w h fuel s).maxY := by
  induction fuel generalizing s with
  | zero => exact ⟨hx, hy⟩
  | succ f ih =>
    unfold fillLoop
    cases hs : s.stack with
    | nil => exact ⟨hx, hy⟩
    | cons curr rest =>
      obtain ⟨m1, m2, m3, m4⟩ := foldl_pushStep_minmax mask (neighborsOf w h curr)
        { s with stack := rest,
                 minX := min s.minX (curr % w), maxX := max s.maxX (curr % w),
                 minY := min s.minY (curr / w), maxY := max s.maxY (curr / w) }
      apply ih
      · rw [m1, m2]
        exact le_trans (min_le_left _ _) (le_trans hx (le_max_left _ _))
      · rw [m3, m4]
        exact le_trans (min_le_left _ _) (le_trans hy (le_max_left _ _))

/-- Invariant of the outer labeling scan: visited length matches the
mask, the global push trace has no duplicates, pushed cells are visited
and in range, and every flood fill so far drained its stack. -/
def LabelInv (mask : List Nat) (st : LabelState) : Prop :=
  mask.length = st.visited.length ∧ st.pushed.Nodup ∧
  (∀ c ∈ st.pushed, st.visited.getD c false = true) ∧
  (∀ c ∈ st.pushed, c < mask.length) ∧ st.ok = true

theorem labelStep_inv (mask : List Nat) (w h scale : Nat) (st : LabelState) (i : Nat)
    (hwh : mask.length = w * h) (hinv : LabelInv mask st) :
    LabelInv mask (labelStep mask w h scale st i) := by
  obtain ⟨hlen, hnd, hvis, hbnd, hok⟩ := hinv
  by_cases hcond : mask.getD i 0 = 1 ∧ st.visited.getD i false = false
  · have hi : i < mask.length := getD_one_lt_length mask i hcond.1
    have hnotin : i ∉ st.pushed := by
      intro hmem
      rw [hvis i hmem] at hcond
      exact absurd hcond.2 (by simp)
    have hs0inv : FillInv mask
        ⟨st.visited.set i true, [i], i % w, i % w, i / w, i / w, i :: st.pushed⟩ := by
      refine ⟨by simpa using hlen, ?_, ?_, ?_⟩
      · exact List.nodup_cons.mpr ⟨hnotin, hnd⟩
      · intro c hc
        rcases List.mem_cons.mp hc with rfl | hc2
        · exact listGetDSetSelf st.visited c true false (by omega)
        · by_cases hci : i = c
          · subst hci
            exact listGetDSetSelf st.visited i true false (by omega)
          · rw [listGetDSetNe st.visited i c true false hci]
            exact hvis c hc2
      · intro c hc
        rcases List.mem_cons.mp hc with rfl | hc2
        · exact hi
        · exact hbnd c hc2
    have hstack : (fillLoop mask w h (2 * (w * h) + 1)
        ⟨st.visited.set i true, [i], i % w, i % w, i / w, i / w, i :: st.pushed⟩).stack = [] := by
      apply fillLoop_stack_empty
      · simpa using hlen
      · have h1 : countFalse (st.visited.set i true) ≤ st.visited.length := by
          have := countFalse_le_length (st.visited.set i true)
          simpa using this
        simp only [fillMeasure, List.length_cons, List.length_nil]
        omega
    have hfinv := fillLoop_inv mask w h (2 * (w * h) + 1)
      ⟨st.visited.set i true, [i], i % w, i % w, i / w, i / w, i :: st.pushed⟩ hs0inv
    simp only [labelStep, if_pos hcond]
    exact ⟨hfinv.1, hfinv.2.1, hfinv.2.2.1, hfinv.2.2.2, by rw [hok, hstack]; rfl⟩
  · simp only [labelStep, if_neg hcond]
    exact ⟨hlen, hnd, hvis, hbnd, hok⟩

theorem foldl_labelStep_inv (mask : List Nat) (w h scale : Nat) (hwh : mask.length = w * h)
    (idxs : List Nat) (st : LabelState) (hinv : LabelInv mask st) :
    LabelInv mask (idxs.foldl (labelStep mask w h scale) st) := by
  induction idxs generalizing st with
  | nil => exact hinv
  | cons i t ih => exact ih _ (labelStep_inv mask w h scale st i hwh hinv)

theorem nodupBelow_length_le (l : List Nat) (n : Nat) (hnd : l.Nodup) (hb : ∀ c ∈ l, c < n) :
    l.length ≤ n := by
  have hsub : l.toFinset ⊆ Finset.range n := by
    intro c hc
    rw [Finset.mem_range]
    exact hb c (List.mem_toFinset.mp hc)
  have hcard := Finset.card_le_card hsub
  rwa [List.toFinset_card_of_nodup hnd, Finset.card_range] at hcard

/-- Claim C1: over the whole labeling run, cells are marked visited at
the moment they are pushed (as pushStep and labelStep are written), so
the ghost trace of pushes never repeats a cell (no duplicate stack
entries, and distinct flood fills touch disjoint cell sets, so no
component can be emitted twice), its total length is at most the number
of mask cells (work linear in mask cells), and every flood fill drains
its stack within fuel 2 * cells + 1 steps, so the fill terminates for
every mask. -/
theorem labelComponents_no_repush (mask : List Nat) (w h scale : Nat)
    (hwh : mask.length = w * h) :
    (labelComponents mask w h scale).ok = true ∧
    (labelComponents mask w h scale).pushed.Nodup ∧
    (labelComponents mask w h scale).pushed.length ≤ w * h := by
  have hinit : LabelInv mask ⟨List.replicate (w * h) false, [], [], true⟩ := by
    refine ⟨by simpa using hwh, List.nodup_nil, ?_, ?_, rfl⟩
    · intro c hc
      simp at hc
    · intro c hc
      simp at hc
  have hinv := foldl_labelStep_inv mask w h scale hwh (List.range (w * h)) _ hinit
  obtain ⟨hlen, hnd, hvis, hbnd, hok⟩ := hinv
  exact ⟨hok, hnd, nodupBelow_length_le _ _ hnd (fun c hc => hwh ▸ hbnd c hc)⟩

/-- Claim C1 witness: a concrete 2 x 2 mask run through the labeling. -/
theorem labelComponents_no_repush_witness :
    ([1, 1, 0, 1] : List Nat).length = 2 * 2 ∧
    ((labelComponents [1, 1, 0, 1] 2 2 2).ok = true ∧
     (labelComponents [1, 1, 0, 1] 2 2 2).pushed.Nodup ∧
     (labelComponents [1, 1, 0, 1] 2 2 2).pushed.length ≤ 2 * 2) :=
  ⟨by decide, labelComponents_no_repush [1, 1, 0, 1] 2 2 2 (by decide)⟩

theorem emitComponent_eq (scale minX minY maxX maxY : Nat) :
    emitComponent scale minX minY maxX maxY =
      if 20 < (maxX + 1) * scale - minX * scale ∧ 20 < (maxY + 1) * scale - minY * scale then
        some ⟨minX * scale, minY * scale, (maxX + 1) * scale, (maxY + 1) * scale⟩
      else none := rfl

theorem emitComponent_some_big (scale minX minY maxX maxY : Nat) (c : Box)
    (h : emitComponent scale minX minY maxX maxY = some c) :
    (20 < c.x2 - c.x1 ∧ 20 < c.y2 - c.y1) ∧
    c = ⟨minX * scale, minY * scale, (maxX + 1) * scale, (maxY + 1) * scale⟩ := by
  rw [emitComponent_eq] at h
  split at h
  · next hcond =>
    obtain rfl : (⟨minX * scale, minY * scale, (maxX + 1) * scale, (maxY + 1) * scale⟩ : Box) = c :=
      Option.some_injective _ h
    exact ⟨hcond, rfl⟩
  · exact absurd h (by simp)

theorem labelStep_components_big (mask : List Nat) (w h scale : Nat) (st : LabelState) (i : Nat)
    (hst : ∀ b ∈ st.components, 20 < b.x2 - b.x1 ∧ 20 < b.y2 - b.y1) :
    ∀ b ∈ (labelStep mask w h scale st i).components, 20 < b.x2 - b.x1 ∧ 20 < b.y2 - b.y1 := by
  by_cases hcond : mask.getD i 0 = 1 ∧ st.visited.getD i false = false
  · simp only [labelStep, if_pos hcond]
    intro b hb
    rcases List.mem_append.mp hb with hb1 | hb2
    · exact hst b hb1
    · revert hb2
      cases hemit : emitComponent scale
        (fillLoop mask w h (2 * (w * h) + 1)
          ⟨st.visited.set i true, [i], i % w, i % w, i / w, i / w, i :: st.pushed⟩).minX
        (fillLoop mask w h (2 * (w * h) + 1)
          ⟨st.visited.set i true, [i], i % w, i % w, i / w, i / w, i :: st.pushed⟩).minY
        (fillLoop mask w h (2 * (w * h) + 1)
          ⟨st.visited.set i true, [i], i % w, i % w, i / w, i / w, i :: st.pushed⟩).maxX
        (fillLoop mask w h (2 * (w * h) + 1)
          ⟨st.visited.set i true, [i], i % w, i % w, i / w, i / w, i :: st.pushed⟩).maxY with
      | none => intro hb2; simp at hb2
      | some c =>
        intro hb2
        obtain rfl : b = c := by simpa using hb2
        exact (emitComponent_some_big _ _ _ _ _ _ hemit).1
  · simp only [labelStep, if_neg hcond]
    exact hst

theorem foldl_labelStep_components_big (mask : List Nat) (w h scale : Nat)
    (idxs : List Nat) (st : LabelState)
    (hst : ∀ b ∈ st.components, 20 < b.x2 - b.x1 ∧ 20 < b.y2 - b.y1) :
    ∀ b ∈ (idxs.foldl (labelStep mask w h scale) st).components,
      20 < b.x2 - b.x1 ∧ 20 < b.y2 - b.y1 := by
  induction idxs generalizing st with
  | nil => exact hst
  | cons i t ih =>
    rw [List.foldl_cons]
    exact ih _ (labelStep_components_big mask w h scale st i hst)

theorem labelComponents_components_big (mask : List Nat) (w h scale : Nat) :
    ∀ b ∈ (labelComponents mask w h scale).components,
      20 < b.x2 - b.x1 ∧ 20 < b.y2 - b.y1 := by
  unfold labelComponents
  exact foldl_labelStep_components_big mask w h scale _ _ (by intro b hb; simp at hb)

/-- Claim C8: a component box passes the emission filter iff both of its
full-image dimensions, obtained by rescaling the inclusive mask-space
extents by the scale factor, strictly exceed 20 pixels; the emitted box
is exactly the rescaled one, and every box in the labeling output indeed
has both dimensions strictly above 20 full-image pixels. -/
theorem component_filter_strict (scale minX minY maxX maxY : Nat)
    (hx : minX ≤ maxX) (hy : minY ≤ maxY) :
    ((emitComponent scale minX minY maxX maxY).isSome ↔
      (20 < (maxX - minX + 1) * scale ∧ 20 < (maxY - minY + 1) * scale)) ∧
    (∀ c, emitComponent scale minX minY maxX maxY = some c →
      c = ⟨minX * scale, minY * scale, (maxX + 1) * scale, (maxY + 1) * scale⟩) ∧
    (∀ (mask : List Nat) (w h : Nat) (b : Box),
      b ∈ (labelComponents mask w h scale).components →
      (20 < b.x2 - b.x1 ∧ 20 < b.y2 - b.y1)) := by
  have e1 : (maxX + 1) * scale - minX * scale = (maxX - minX + 1) * scale := by
    rw [← Nat.sub_mul]
    congr 1
    omega
  have e2 : (maxY + 1) * scale - minY * scale = (maxY - minY + 1) * scale := by
    rw [← Nat.sub_mul]
    congr 1
    omega
  refine ⟨?_, ?_, ?_⟩
  · rw [emitComponent_eq, e1, e2]
    split
    · next hcond => simpa using hcond
    · next hcond => simpa using hcond
  · intro c hc
    exact (emitComponent_some_big scale minX minY maxX maxY c hc).2
  · intro mask w h b hb
    exact labelComponents_components_big mask w h scale b hb

/-- Claim C8 witness: a concrete component of mask-space extent 0..10 by
0..11 at scale 2 exercises the filter equivalence. -/
theorem component_filter_strict_witness :
    (0 : Nat) ≤ 10 ∧ (0 : Nat) ≤ 11 ∧
    ((emitComponent 2 0 0 10 11).isSome ↔
      (20 < (10 - 0 + 1) * 2 ∧ 20 < (11 - 0 + 1) * 2)) :=
  ⟨by decide, by decide, (component_filter_strict 2 0 0 10 11 (by decide) (by decide)).1⟩

/-! ## detect_pet_layout.py: frame ordering -/

/-- Horizontal centroid (c[0]+c[2])/2 of a component box, in exact
rational arithmetic (the Python floats are exact for pixel-sized
integers). -/
def centroidX (c : Box) : ℚ := ((c.x1 : ℚ) + (c.x2 : ℚ)) / 2

/-- Vertical centroid (c[1]+c[3])/2 of a component box. -/
def centroidY (c : Box) : ℚ := ((c.y1 : ℚ) + (c.y2 : ℚ)) / 2

/-- The sort key of find_components: the row bucket
centroidY // (height / 2) paired with the horizontal centroid (the source
hardcodes two row buckets). -/
def sortKey (hgt : Nat) (c : Box) : ℤ × ℚ :=
  (⌊centroidY c / ((hgt : ℚ) / 2)⌋, centroidX c)

/-- Strict lexicographic order on sort keys, the comparison Python uses
on the key tuples. -/
def keyLt (a b : ℤ × ℚ) : Prop := a.1 < b.1 ∨ (a.1 = b.1 ∧ a.2 < b.2)

instance keyLtDec (a b : ℤ × ℚ) : Decidable (keyLt a b) :=
  inferInstanceAs (Decidable (a.1 < b.1 ∨ (a.1 = b.1 ∧ a.2 < b.2)))

/-- Box a sorts no later than box b under the find_components key. -/
def boxLe (hgt : Nat) (a b : Box) : Prop := ¬ keyLt (sortKey hgt b) (sortKey hgt a)

/-- Stable insertion of a box into an already sorted list: the new box
goes after every element whose key is less than or equal to its own, so
elements with equal keys keep their earlier relative position. -/
def insertSorted (hgt : Nat) (c : Box) : List Box → List Box
  | [] => [c]
  | d :: t =>
    if keyLt (sortKey hgt c) (sortKey hgt d) then c :: d :: t
    else d :: insertSorted hgt c t

/-- Embedding of the components.sort call: Python list.sort is a stable
comparison sort by the key tuple, realized here as a stable insertion
sort processing the list in discovery order. -/
def sortComponents (hgt : Nat) (l : List Box) : List Box :=
  l.foldl (fun acc c => insertSorted hgt c acc) []

theorem keyLt_irrefl (a : ℤ × ℚ) : ¬ keyLt a a := by
  rintro (h | ⟨e, l⟩)
  · exact lt_irrefl _ h
  · exact lt_irrefl _ l

theorem keyLt_asymm {a b : ℤ × ℚ} (h : keyLt a b) : ¬ keyLt b a := by
  rintro (h2 | ⟨e2, l2⟩) <;> rcases h with h | ⟨e, l⟩
  · exact absurd (lt_trans h h2) (lt_irrefl _)
  · exact absurd (e ▸ h2) (lt_irrefl _)
  · exact absurd (e2 ▸ h) (lt_irrefl _)
  · exact absurd (lt_trans l l2) (lt_irrefl _)

theorem keyLt_trans {a b c : ℤ × ℚ} (h1 : keyLt a b) (h2 : keyLt b c) : keyLt a c := by
  rcases h1 with h1 | ⟨e1, l1⟩ <;> rcases h2 with h2 | ⟨e2, l2⟩
  · exact Or.inl (lt_trans h1 h2)
  · exact Or.inl (e2 ▸ h1)
  · exact Or.inl (e1 ▸ h2)
  · exact Or.inr ⟨e1.trans e2, lt_trans l1 l2⟩

theorem mem_insertSorted (hgt : Nat) (c e : Box) (l : List Box) :
    e ∈ insertSorted hgt c l ↔ e = c ∨ e ∈ l := by
  induction l with
  | nil => simp [insertSorted]
  | cons d t ih =>
    unfold insertSorted
    split
    · simp
    · simp only [List.mem_cons, ih]
      tauto

theorem insertSorted_pairwise (hgt : Nat) (c : Box) (l : List Box)
    (hl : l.Pairwise (boxLe hgt)) : (insertSorted hgt c l).Pairwise (boxLe hgt) := by
  induction l with
  | nil => simp [insertSorted, List.pairwise_cons]
  | cons d t ih =>
    rcases List.pairwise_cons.mp hl with ⟨hd, ht⟩
    unfold insertSorted
    split
    · next hlt =>
      refine List.pairwise_cons.mpr ⟨?_, hl⟩
      intro e he
      rcases List.mem_cons.mp he with rfl | he2
      · exact keyLt_asymm hlt
      · intro hek
        exact absurd (keyLt_trans hek hlt) (hd e he2)
    · next hnlt =>
      refine List.pairwise_cons.mpr ⟨?_, ih ht⟩
      intro e he
      rcases (mem_insertSorted hgt c e t).mp he with rfl | he2
      · exact hnlt
      · exact hd e he2

theorem insertSorted_perm (hgt : Nat) (c : Box) (l : List Box) :
    List.Perm (insertSorted hgt c l) (c :: l) := by
  induction l with
  | nil => exact List.Perm.refl _
  | cons d t ih =>
    unfold insertSorted
    split
    · exact List.Perm.refl _
    · exact (List.Perm.cons d ih).trans (List.Perm.swap c d t)

theorem foldl_insertSorted_pairwise (hgt : Nat) (l : List Box) (acc : List Box)
    (hacc : acc.Pairwise (boxLe hgt)) :
    (l.foldl (fun a c => insertSorted hgt c a) acc).Pairwise (boxLe hgt) := by
  induction l generalizing acc with
  | nil => exact hacc
  | cons c t ih =>
    rw [List.foldl_cons]
    exact ih _ (insertSorted_pairwise hgt c acc hacc)

theorem foldl_insertSorted_perm (hgt : Nat) (l : List Box) (acc : List Box) :
    List.Perm (l.foldl (fun a c => insertSorted hgt c a) acc) (acc ++ l) := by
  induction l generalizing acc with
  | nil => simp
  | cons c t ih =>
    rw [List.foldl_cons]
    refine (ih (insertSorted hgt c acc)).trans ?_
    refine ((insertSorted_perm hgt c acc).append_right t).trans ?_
    exact (List.perm_middle).symm

/-- Boolean test that a box has exactly the given sort key. -/
def keyPred (hgt : Nat) (k : ℤ × ℚ) (b : Box) : Bool := decide (sortKey hgt b = k)

theorem filter_insertSorted (hgt : Nat) (k : ℤ × ℚ) (c : Box) (l : List Box)
    (hl : l.Pairwise (boxLe hgt)) :
    (insertSorted hgt c l).filter (keyPred hgt k) =
      if sortKey hgt c = k then l.filter (keyPred hgt k) ++ [c]
      else l.filter (keyPred hgt k) := by
  induction l with
  | nil =>
    by_cases hck : sortKey hgt c = k
    · simp [insertSorted, keyPred, hck]
    · simp [insertSorted, keyPred, hck]
  | cons d t ih =>
    rcases List.pairwise_cons.mp hl with ⟨hd, ht⟩
    unfold insertSorted
    split
    · next hlt =>
      by_cases hck : sortKey hgt c = k
      · have hnil : (d :: t).filter (keyPred hgt k) = [] := by
          rw [List.filter_eq_nil_iff]
          intro e he
          rcases List.mem_cons.mp he with rfl | he2
          · simp only [keyPred, decide_eq_true_eq]
            intro hek
            rw [← hek] at hck
            rw [hck] at hlt
            exact keyLt_irrefl _ hlt
          · simp only [keyPred, decide_eq_true_eq]
            intro hek
            rw [← hck] at hek
            rw [← hek] at hlt
            exact hd e he2 hlt
        rw [if_pos hck, hnil]
        simp [keyPred, hck, hnil]
      · rw [if_neg hck]
        simp [keyPred, hck]
    · next hnlt =>
      have hrec := ih ht
      by_cases hdk : sortKey hgt d = k
      · by_cases hck : sortKey hgt c = k
        · simp [keyPred, hdk, hck, List.filter_cons] at hrec ⊢
          rw [hrec]
        · simp [keyPred, hdk, hck, List.filter_cons] at hrec ⊢
          rw [hrec]
      · by_cases hck : sortKey hgt c = k
        · simp [keyPred, hdk, hck, List.filter_cons] at hrec ⊢
          rw [hrec]
        · simp [keyPred, hdk, hck, List.filter_cons] at hrec ⊢
          rw [hrec]

theorem foldl_insertSorted_filter (hgt : Nat) (k : ℤ × ℚ) (l : List Box) (acc : List Box)
    (hacc : acc.Pairwise (boxLe hgt)) :
    (l.foldl (fun a c => insertSorted hgt c a) acc).filter (keyPred hgt k) =
      acc.filter (keyPred hgt k) ++ l.filter (keyPred hgt k) := by
  induction l generalizing acc with
  | nil => simp
  | cons c t ih =>
    rw [List.foldl_cons, ih _ (insertSorted_pairwise hgt c acc hacc),
        filter_insertSorted hgt k c acc hacc]
    by_cases hck : sortKey hgt c = k
    · rw [if_pos hck]
      simp [List.filter_cons, keyPred, hck]
    · rw [if_neg hck]
      simp [List.filter_cons, keyPred, hck]

/-- Claim C3: frame ordering sorts by the key (rowBucket, centroidX)
ascending, where rowBucket is floor(centroidY / (imageHeight / 2)) with
the two row buckets hardcoded by the source; the sort is a permutation,
it is sorted under the key order, it is stable (for every fixed key the
subsequence of boxes with that key is exactly the input subsequence, so
ties retain discovery order), and on four rectangles with centroids
(10,10), (90,10), (10,90), (90,90) with image height 100 the result is
ordered (10,10), (90,10), (10,90), (90,90). -/
theorem frame_ordering_stable :
    (∀ (hgt : Nat) (l : List Box), (sortComponents hgt l).Pairwise (boxLe hgt)) ∧
    (∀ (hgt : Nat) (l : List Box), List.Perm (sortComponents hgt l) l) ∧
    (∀ (hgt : Nat) (l : List Box) (k : ℤ × ℚ),
      (sortComponents hgt l).filter (keyPred hgt k) = l.filter (keyPred hgt k)) ∧
    sortComponents 100
        [⟨80, 80, 100, 100⟩, ⟨0, 0, 20, 20⟩, ⟨80, 0, 100, 20⟩, ⟨0, 80, 20, 100⟩] =
      [⟨0, 0, 20, 20⟩, ⟨80, 0, 100, 20⟩, ⟨0, 80, 20, 100⟩, ⟨80, 80, 100, 100⟩] := by
  refine ⟨?_, ?_, ?_, ?_⟩
  · intro hgt l
    exact foldl_insertSorted_pairwise hgt l [] (by simp)
  · intro hgt l
    simpa using foldl_insertSorted_perm hgt l []
  · intro hgt l k
    simpa using foldl_insertSorted_filter hgt k l [] (by simp)
  · have k1 : sortKey 100 ⟨0, 0, 20, 20⟩ = ((0 : ℤ), (10 : ℚ)) := by
      unfold sortKey centroidX centroidY
      norm_num [Prod.ext_iff]
    have k2 : sortKey 100 ⟨80, 0, 100, 20⟩ = ((0 : ℤ), (90 : ℚ)) := by
      unfold sortKey centroidX centroidY
      norm_num [Prod.ext_iff]
    have k3 : sortKey 100 ⟨0, 80, 20, 100⟩ = ((1 : ℤ), (10 : ℚ)) := by
      unfold sortKey centroidX centroidY
      norm_num [Prod.ext_iff]
    have k4 : sortKey 100 ⟨80, 80, 100, 100⟩ = ((1 : ℤ), (90 : ℚ)) := by
      unfold sortKey centroidX centroidY
      norm_num [Prod.ext_iff]
    have hse1 : insertSorted 100 ⟨80, 80, 100, 100⟩ [] = [⟨80, 80, 100, 100⟩] := by
      unfold insertSorted
      rfl
    have hse2 : insertSorted 100 ⟨0, 0, 20, 20⟩ [⟨80, 80, 100, 100⟩] =
        [⟨0, 0, 20, 20⟩, ⟨80, 80, 100, 100⟩] := by
      unfold insertSorted
      rw [k1, k4, if_pos (show keyLt ((0 : ℤ), (10 : ℚ)) (1, 90) by decide)]
    have hse3 : insertSorted 100 ⟨80, 0, 100, 20⟩ [⟨80, 80, 100, 100⟩] =
        [⟨80, 0, 100, 20⟩, ⟨80, 80, 100, 100⟩] := by
      unfold insertSorted
      rw [k2, k4, if_pos (show keyLt ((0 : ℤ), (90 : ℚ)) (1, 90) by decide)]
    have hse4 : insertSorted 100 ⟨80, 0, 100, 20⟩ [⟨0, 0, 20, 20⟩, ⟨80, 80, 100, 100⟩] =
        [⟨0, 0, 20, 20⟩, ⟨80, 0, 100, 20⟩, ⟨80, 80, 100, 100⟩] := by
      unfold insertSorted
      rw [k1, k2, if_neg (show ¬ keyLt ((0 : ℤ), (90 : ℚ)) (0, 10) by decide)]
      rw [hse3]
    have hse5 : insertSorted 100 ⟨0, 80, 20, 100⟩ [⟨80, 80, 100, 100⟩] =
        [⟨0, 80, 20, 100⟩, ⟨80, 80, 100, 100⟩] := by
      unfold insertSorted
      rw [k3, k4, if_pos (show keyLt ((1 : ℤ), (10 : ℚ)) (1, 90) by decide)]
    have hse6 : insertSorted 100 ⟨0, 80, 20, 100⟩ [⟨80, 0, 100, 20⟩, ⟨80, 80, 100, 100⟩] =
        [⟨80, 0, 100, 20⟩, ⟨0, 80, 20, 100⟩, ⟨80, 80, 100, 100⟩] := by
      unfold insertSorted
      rw [k2, k3, if_neg (show ¬ keyLt ((1 : ℤ), (10 : ℚ)) (0, 90) by decide)]
      rw [hse5]
    have hse7 : insertSorted 100 ⟨0, 80, 20, 100⟩
        [⟨0, 0, 20, 20⟩, ⟨80, 0, 100, 20⟩, ⟨80, 80, 100, 100⟩] =
        [⟨0, 0, 20, 20⟩, ⟨80, 0, 100, 20⟩, ⟨0, 80, 20, 100⟩, ⟨80, 80, 100, 100⟩] := by
      conv =>
        lhs
        rw [insertSorted]
      rw [k1, k3, if_neg (show ¬ keyLt ((1 : ℤ), (10 : ℚ)) (0, 10) by decide), hse6]
    unfold sortComponents
    rw [List.foldl_cons, List.foldl_cons, List.foldl_cons, List.foldl_cons, List.foldl_nil,
        hse1, hse2, hse4, hse7]

/-! ## detect_pet_layout.py: bounding-box refinement -/

theorem firstSuch_spec (p : Nat → Bool) (n : Nat) :
    (firstSuch p n = none ∧ ∀ j, j < n → p j = false) ∨
    (∃ k, firstSuch p n = some k ∧ k < n ∧ p k = true ∧ ∀ j, j < k → p j = false) := by
  induction n with
  | zero => exact Or.inl ⟨rfl, by omega⟩
  | succ m ih =>
    rcases ih with ⟨hn, hall⟩ | ⟨k, hk, hkm, hpk, hbefore⟩
    · by_cases hp : p m = true
      · refine Or.inr ⟨m, ?_, by omega, hp, hall⟩
        unfold firstSuch
        rw [hn, hp]
        rfl
      · refine Or.inl ⟨?_, ?_⟩
        · unfold firstSuch
          rw [hn]
          simp [hp]
        · intro j hj
          by_cases hjm : j < m
          · exact hall j hjm
          · have : j = m := by omega
            subst this
            simpa using hp
    · refine Or.inr ⟨k, ?_, by omega, hpk, hbefore⟩
      unfold firstSuch
      rw [hk]

theorem lastSuch_spec (p : Nat → Bool) (n : Nat) :
    (lastSuch p n = none ∧ ∀ j, j < n → p j = false) ∨
    (∃ k, lastSuch p n = some k ∧ k < n ∧ p k = true ∧ ∀ j, k < j → j < n → p j = false) := by
  induction n with
  | zero => exact Or.inl ⟨rfl, by omega⟩
  | succ m ih =>
    by_cases hp : p m = true
    · refine Or.inr ⟨m, ?_, by omega, hp, by omega⟩
      unfold lastSuch
      rw [if_pos hp]
    · rcases ih with ⟨hn, hall⟩ | ⟨k, hk, hkm, hpk, hafter⟩
      · refine Or.inl ⟨?_, ?_⟩
        · unfold lastSuch
          rw [if_neg hp]
          exact hn
        · intro j hj
          by_cases hjm : j < m
          · exact hall j hjm
          · have : j = m := by omega
            subst this
            simpa using hp
      · refine Or.inr ⟨k, ?_, by omega, hpk, ?_⟩
        · unfold lastSuch
          rw [if_neg hp]
          exact hk
        · intro j hkj hj
          by_cases hjm : j < m
          · exact hafter j hkj hjm
          · have : j = m := by omega
            subst this
            simpa using hp

theorem colHasContent_iff (img : Image) (x : Nat) :
    colHasContent img x = true ↔ ∃ y, y < img.height ∧ 0 < (img.pixel x y).a := by
  unfold colHasContent
  rw [List.any_eq_true]
  constructor
  · rintro ⟨y, hy, hp⟩
    exact ⟨y, List.mem_range.mp hy, by simpa using hp⟩
  · rintro ⟨y, hy, hp⟩
    exact ⟨y, List.mem_range.mpr hy, by simpa using hp⟩

theorem rowHasContent_iff (img : Image) (y : Nat) :
    rowHasContent img y = true ↔ ∃ x, x < img.width ∧ 0 < (img.pixel x y).a := by
  unfold rowHasContent
  rw [List.any_eq_true]
  constructor
  · rintro ⟨x, hx, hp⟩
    exact ⟨x, List.mem_range.mp hx, by simpa using hp⟩
  · rintro ⟨x, hx, hp⟩
    exact ⟨x, List.mem_range.mpr hx, by simpa using hp⟩

theorem getbbox_none_iff (img : Image) :
    img.getbbox = none ↔ ∀ x y, x < img.width → y < img.height → (img.pixel x y).a = 0 := by
  constructor
  · intro h x y hx hy
    by_contra ha
    have hpos : 0 < (img.pixel x y).a := by omega
    have hcol : colHasContent img x = true := (colHasContent_iff img x).mpr ⟨y, hy, hpos⟩
    have hrow : rowHasContent img y = true := (rowHasContent_iff img y).mpr ⟨x, hx, hpos⟩
    rcases firstSuch_spec (colHasContent img) img.width with ⟨h1, hall⟩ | ⟨k1, hk1, hb1⟩
    · exact absurd hcol (by rw [hall x hx]; simp)
    rcases firstSuch_spec (rowHasContent img) img.height with ⟨h2, hall⟩ | ⟨k2, hk2, hb2⟩
    · exact absurd hrow (by rw [hall y hy]; simp)
    rcases lastSuch_spec (colHasContent img) img.width with ⟨h3, hall⟩ | ⟨k3, hk3, hb3⟩
    · exact absurd hcol (by rw [hall x hx]; simp)
    rcases lastSuch_spec (rowHasContent img) img.height with ⟨h4, hall⟩ | ⟨k4, hk4, hb4⟩
    · exact absurd hrow (by rw [hall y hy]; simp)
    unfold Image.getbbox at h
    rw [hk1, hk2, hk3, hk4] at h
    simp at h
  · intro hall
    have h1 : firstSuch (colHasContent img) img.width = none := by
      rcases firstSuch_spec (colHasContent img) img.width with ⟨h1, _⟩ | ⟨k, hk, hkn, hpk, _⟩
      · exact h1
      · rcases (colHasContent_iff img k).mp hpk with ⟨y, hy, hpos⟩
        have := hall k y hkn hy
        omega
    unfold Image.getbbox
    rw [h1]

theorem getbbox_some_char (img : Image) (b : Box) (h : img.getbbox = some b) :
    (b.x1 < b.x2 ∧ b.y1 < b.y2 ∧ b.x2 ≤ img.width ∧ b.y2 ≤ img.height) ∧
    (colHasContent img b.x1 = true ∧ rowHasContent img b.y1 = true ∧
     colHasContent img (b.x2 - 1) = true ∧ rowHasContent img (b.y2 - 1) = true) ∧
    ((∀ x, x < b.x1 → colHasContent img x = false) ∧
     (∀ x, b.x2 - 1 < x → x < img.width → colHasContent img x = false) ∧
     (∀ y, y < b.y1 → rowHasContent img y = false) ∧
     (∀ y, b.y2 - 1 < y → y < img.height → rowHasContent img y = false)) := by
  unfold Image.getbbox at h
  rcases firstSuch_spec (colHasContent img) img.width with ⟨h1, _⟩ | ⟨a, ha, han, hpa, hba⟩
  · rw [h1] at h
    simp at h
  rcases firstSuch_spec (rowHasContent img) img.height with ⟨h2, _⟩ | ⟨r, hr, hrn, hpr, hbr⟩
  · rw [ha, h2] at h
    simp at h
  rcases lastSuch_spec (colHasContent img) img.width with ⟨h3, _⟩ | ⟨c, hc, hcn, hpc, hac⟩
  · rw [ha, hr, h3] at h
    simp at h
  rcases lastSuch_spec (rowHasContent img) img.height with ⟨h4, _⟩ | ⟨d, hd, hdn, hpd, had⟩
  · rw [ha, hr, hc, h4] at h
    simp at h
  rw [ha, hr, hc, hd] at h
  simp only [Option.some_inj] at h
  subst h
  dsimp only
  have hac2 : a ≤ c := by
    by_contra hgt
    have := hac a (by omega) han
    rw [this] at hpa
    exact absurd hpa (by simp)
  have hrd2 : r ≤ d := by
    by_contra hgt
    have := had r (by omega) hrn
    rw [this] at hpr
    exact absurd hpr (by simp)
  refine ⟨⟨by omega, by omega, by omega, by omega⟩, ⟨hpa, hpr, ?_, ?_⟩, ?_, ?_, ?_, ?_⟩
  · simpa using hpc
  · simpa using hpd
  · intro x hx
    exact hba x (by simpa using hx)
  · intro x hx hx2
    exact hac x (by omega) hx2
  · intro y hy
    exact hbr y (by simpa using hy)
  · intro y hy hy2
    exact had y (by omega) hy2

theorem crop_pixel_eq (img : Image) (x1 y1 x2 y2 i j : Nat)
    (hx2 : x2 ≤ img.width) (hy2 : y2 ≤ img.height) (hi : i < x2 - x1) (hj : j < y2 - y1) :
    (img.crop x1 y1 x2 y2).pixel i j = img.pixel (x1 + i) (y1 + j) := by
  unfold Image.crop
  simp only
  rw [if_pos ⟨by omega, by omega, hi, hj⟩]

theorem crop_pixel_clear (img : Image) (x1 y1 x2 y2 i j : Nat)
    (hout : ¬ (i < x2 - x1 ∧ j < y2 - y1)) :
    (img.crop x1 y1 x2 y2).pixel i j = Pixel.clear := by
  unfold Image.crop
  simp only
  rw [if_neg (by tauto)]

theorem crop_colHasContent (img : Image) (x1 y1 x2 y2 i : Nat)
    (hx2 : x2 ≤ img.width) (hy2 : y2 ≤ img.height) :
    (colHasContent (img.crop x1 y1 x2 y2) i = true ↔
      (i < x2 - x1 ∧ ∃ y, y < y2 - y1 ∧ 0 < (img.pixel (x1 + i) (y1 + y)).a)) := by
  rw [colHasContent_iff]
  constructor
  · rintro ⟨y, hy, hpos⟩
    have hy2b : y < y2 - y1 := by simpa [Image.crop] using hy
    by_cases hi : i < x2 - x1
    · rw [crop_pixel_eq img x1 y1 x2 y2 i y hx2 hy2 hi hy2b] at hpos
      exact ⟨hi, y, hy2b, hpos⟩
    · rw [crop_pixel_clear img x1 y1 x2 y2 i y (by tauto)] at hpos
      simp [Pixel.clear] at hpos
  · rintro ⟨hi, y, hy, hpos⟩
    refine ⟨y, by simpa [Image.crop] using hy, ?_⟩
    rw [crop_pixel_eq img x1 y1 x2 y2 i y hx2 hy2 hi hy]
    exact hpos

theorem crop_rowHasContent (img : Image) (x1 y1 x2 y2 j : Nat)
    (hx2 : x2 ≤ img.width) (hy2 : y2 ≤ img.height) :
    (rowHasContent (img.crop x1 y1 x2 y2) j = true ↔
      (j < y2 - y1 ∧ ∃ x, x < x2 - x1 ∧ 0 < (img.pixel (x1 + x) (y1 + j)).a)) := by
  rw [rowHasContent_iff]
  constructor
  · rintro ⟨x, hx, hpos⟩
    have hx2b : x < x2 - x1 := by simpa [Image.crop] using hx
    by_cases hj : j < y2 - y1
    · rw [crop_pixel_eq img x1 y1 x2 y2 x j hx2 hy2 hx2b hj] at hpos
      exact ⟨hj, x, hx2b, hpos⟩
    · rw [crop_pixel_clear img x1 y1 x2 y2 x j (by tauto)] at hpos
      simp [Pixel.clear] at hpos
  · rintro ⟨hj, x, hx, hpos⟩
    refine ⟨x, by simpa [Image.crop] using hx, ?_⟩
    rw [crop_pixel_eq img x1 y1 x2 y2 x j hx2 hy2 hx hj]
    exact hpos

/-- Embedding of the refinement step of find_components: expand the rough
full-image box by the 5-pixel padding (max(0, v - 5) is Nat subtraction),
clamp the right and bottom edges to the image size, crop the original
full-resolution image there, take its tight alpha bounding box, and shift
it back to full-image coordinates; none when the crop has no content. -/
def refine (img : Image) (rough : Box) : Option Box :=
  let x1 := rough.x1 - 5
  let y1 := rough.y1 - 5
  let x2 := min img.width (rough.x2 + 5)
  let y2 := min img.height (rough.y2 + 5)
  match (img.crop x1 y1 x2 y2).getbbox with
  | some bb => some ⟨x1 + bb.x1, y1 + bb.y1, x1 + bb.x2, y1 + bb.y2⟩
  | none => none

theorem refine_eq (img : Image) (rough : Box) :
    refine img rough =
      match (img.crop (rough.x1 - 5) (rough.y1 - 5) (min img.width (rough.x2 + 5))
        (min img.height (rough.y2 + 5))).getbbox with
      | some bb => some ⟨rough.x1 - 5 + bb.x1, rough.y1 - 5 + bb.y1,
                         rough.x1 - 5 + bb.x2, rough.y1 - 5 + bb.y2⟩
      | none => none := rfl

/-- Every pixel of the half-open region [x1, x2) x [y1, y2) of the image
is fully transparent.  Written from the spec wording of claim C2. -/
def RegionAllTransparent (img : Image) (x1 x2 y1 y2 : Nat) : Prop :=
  ∀ x y, x1 ≤ x → x < x2 → y1 ≤ y → y < y2 → (img.pixel x y).a = 0

/-- The box b, in full-image coordinates, is the tight content bounding
box of the region [x1, x2) x [y1, y2): it lies inside the region, every
content pixel (alpha > 0) of the region lies inside b, and each of the
four extreme rows and columns of b carries at least one content pixel.
Written from the spec wording of claim C2. -/
def TightContentBox (img : Image) (x1 x2 y1 y2 : Nat) (b : Box) : Prop :=
  (x1 ≤ b.x1 ∧ b.x1 < b.x2 ∧ b.x2 ≤ x2 ∧ y1 ≤ b.y1 ∧ b.y1 < b.y2 ∧ b.y2 ≤ y2) ∧
  (∀ x y, x1 ≤ x → x < x2 → y1 ≤ y → y < y2 → 0 < (img.pixel x y).a →
    b.x1 ≤ x ∧ x < b.x2 ∧ b.y1 ≤ y ∧ y < b.y2) ∧
  (∃ y, y1 ≤ y ∧ y < y2 ∧ 0 < (img.pixel b.x1 y).a) ∧
  (∃ y, y1 ≤ y ∧ y < y2 ∧ 0 < (img.pixel (b.x2 - 1) y).a) ∧
  (∃ x, x1 ≤ x ∧ x < x2 ∧ 0 < (img.pixel x b.y1).a) ∧
  (∃ x, x1 ≤ x ∧ x < x2 ∧ 0 < (img.pixel x (b.y2 - 1)).a)

theorem refine_core (img : Image) (X1 Y1 X2 Y2 : Nat)
    (hX2 : X2 ≤ img.width) (hY2 : Y2 ≤ img.height) :
    ((img.crop X1 Y1 X2 Y2).getbbox = none ↔ RegionAllTransparent img X1 X2 Y1 Y2) ∧
    (∀ bb, (img.crop X1 Y1 X2 Y2).getbbox = some bb →
      TightContentBox img X1 X2 Y1 Y2 ⟨X1 + bb.x1, Y1 + bb.y1, X1 + bb.x2, Y1 + bb.y2⟩) := by
  have hcw : (img.crop X1 Y1 X2 Y2).width = X2 - X1 := rfl
  have hch : (img.crop X1 Y1 X2 Y2).height = Y2 - Y1 := rfl
  constructor
  · rw [getbbox_none_iff]
    constructor
    · intro hall x y hx1 hx2b hy1 hy2b
      have h := hall (x - X1) (y - Y1) (by rw [hcw]; omega) (by rw [hch]; omega)
      rw [crop_pixel_eq img X1 Y1 X2 Y2 _ _ hX2 hY2 (by omega) (by omega)] at h
      rw [show X1 + (x - X1) = x from by omega, show Y1 + (y - Y1) = y from by omega] at h
      exact h
    · intro hreg i j hi hj
      rw [hcw] at hi
      rw [hch] at hj
      rw [crop_pixel_eq img X1 Y1 X2 Y2 i j hX2 hY2 hi hj]
      exact hreg (X1 + i) (Y1 + j) (by omega) (by omega) (by omega) (by omega)
  · intro bb hg
    obtain ⟨⟨h1, h2, h3, h4⟩, ⟨hca, hra, hcc, hrd⟩, hba, hac, hbr, had⟩ :=
      getbbox_some_char _ bb hg
    rw [hcw] at h3 hac
    rw [hch] at h4 had
    unfold TightContentBox
    dsimp only
    refine ⟨⟨by omega, by omega, by omega, by omega, by omega, by omega⟩, ?_, ?_, ?_, ?_, ?_⟩
    · intro x y hx1 hx2b hy1 hy2b hpos
      have hcol : colHasContent (img.crop X1 Y1 X2 Y2) (x - X1) = true := by
        rw [crop_colHasContent img X1 Y1 X2 Y2 _ hX2 hY2]
        refine ⟨by omega, y - Y1, by omega, ?_⟩
        rw [show X1 + (x - X1) = x from by omega, show Y1 + (y - Y1) = y from by omega]
        exact hpos
      have hrow : rowHasContent (img.crop X1 Y1 X2 Y2) (y - Y1) = true := by
        rw [crop_rowHasContent img X1 Y1 X2 Y2 _ hX2 hY2]
        refine ⟨by omega, x - X1, by omega, ?_⟩
        rw [show X1 + (x - X1) = x from by omega, show Y1 + (y - Y1) = y from by omega]
        exact hpos
      refine ⟨?_, ?_, ?_, ?_⟩
      · by_contra hcon
        have hlt : x - X1 < bb.x1 := by omega
        rw [hba _ hlt] at hcol
        exact absurd hcol (by simp)
      · by_contra hcon
        have hgt : bb.x2 - 1 < x - X1 := by omega
        rw [hac _ hgt (by omega)] at hcol
        exact absurd hcol (by simp)
      · by_contra hcon
        have hlt : y - Y1 < bb.y1 := by omega
        rw [hbr _ hlt] at hrow
        exact absurd hrow (by simp)
      · by_contra hcon
        have hgt : bb.y2 - 1 < y - Y1 := by omega
        rw [had _ hgt (by omega)] at hrow
        exact absurd hrow (by simp)
    · rcases (crop_colHasContent img X1 Y1 X2 Y2 bb.x1 hX2 hY2).mp hca with ⟨hi, y, hy, hpos⟩
      exact ⟨Y1 + y, by omega, by omega, hpos⟩
    · rcases (crop_colHasContent img X1 Y1 X2 Y2 (bb.x2 - 1) hX2 hY2).mp hcc with
        ⟨hi, y, hy, hpos⟩
      rw [show X1 + bb.x2 - 1 = X1 + (bb.x2 - 1) from by omega]
      exact ⟨Y1 + y, by omega, by omega, hpos⟩
    · rcases (crop_rowHasContent img X1 Y1 X2 Y2 bb.y1 hX2 hY2).mp hra with ⟨hj, x, hx, hpos⟩
      exact ⟨X1 + x, by omega, by omega, hpos⟩
    · rcases (crop_rowHasContent img X1 Y1 X2 Y2 (bb.y2 - 1) hX2 hY2).mp hrd with
        ⟨hj, x, hx, hpos⟩
      rw [show Y1 + bb.y2 - 1 = Y1 + (bb.y2 - 1) from by omega]
      exact ⟨X1 + x, by omega, by omega, hpos⟩

/-- Claim C2: refinement expands the (already rescaled) rough box by 5
pixels on each side, clamps it to the image bounds, and returns none
exactly when the padded clamped region is entirely transparent, else the
tight content bounding box (first and last row and column holding a pixel
with alpha > 0) of that region in full-image coordinates. -/
theorem refine_padded_tight (img : Image) (rough : Box) :
    (refine img rough = none ↔
      RegionAllTransparent img (rough.x1 - 5) (min img.width (rough.x2 + 5))
        (rough.y1 - 5) (min img.height (rough.y2 + 5))) ∧
    (∀ b, refine img rough = some b →
      TightContentBox img (rough.x1 - 5) (min img.width (rough.x2 + 5))
        (rough.y1 - 5) (min img.height (rough.y2 + 5)) b) := by
  have hcore := refine_core img (rough.x1 - 5) (rough.y1 - 5)
    (min img.width (rough.x2 + 5)) (min img.height (rough.y2 + 5))
    (min_le_left _ _) (min_le_left _ _)
  constructor
  · constructor
    · intro h
      apply hcore.1.mp
      cases hg : (img.crop (rough.x1 - 5) (rough.y1 - 5) (min img.width (rough.x2 + 5))
          (min img.height (rough.y2 + 5))).getbbox with
      | none => rfl
      | some bb =>
        rw [refine_eq, hg] at h
        exact absurd h (by simp)
    · intro hreg
      rw [refine_eq, hcore.1.mpr hreg]
  · intro b hb
    rw [refine_eq] at hb
    cases hg : (img.crop (rough.x1 - 5) (rough.y1 - 5) (min img.width (rough.x2 + 5))
        (min img.height (rough.y2 + 5))).getbbox with
    | none =>
      rw [hg] at hb
      exact absurd hb (by simp)
    | some bb =>
      rw [hg] at hb
      simp only [Option.some_inj] at hb
      subst hb
      exact hcore.2 bb hg

/-- Concrete 10 x 10 image with a single opaque pixel at (4, 4). -/
def imgDot : Image := ⟨10, 10, fun x y => if x = 4 ∧ y = 4 then ⟨0, 0, 0, 255⟩ else Pixel.clear⟩

/-- Concrete rough box for the refinement witness. -/
def roughDot : Box := ⟨2, 2, 8, 8⟩

/-- Claim C2 witness: refining the rough box on the one-dot image returns
the exact single-pixel tight box, and the theorem applies to it. -/
theorem refine_padded_tight_witness :
    refine imgDot roughDot = some ⟨4, 4, 5, 5⟩ ∧
    TightContentBox imgDot (roughDot.x1 - 5) (min imgDot.width (roughDot.x2 + 5))
      (roughDot.y1 - 5) (min imgDot.height (roughDot.y2 + 5)) ⟨4, 4, 5, 5⟩ :=
  ⟨by decide, (refine_padded_tight imgDot roughDot).2 ⟨4, 4, 5, 5⟩ (by decide)⟩

/-! ## process_pet_sprites.py: frame normalization -/

theorem normalizeFrame_pixel (content : Image) (x y : Nat) :
    (normalizeFrame content).pixel x y =
      if x < TARGET_SIZE ∧ y < TARGET_SIZE ∧
         0 ≤ (x : Int) - Int.fdiv ((TARGET_SIZE : Int) - (content.width : Int)) 2 ∧
         (x : Int) - Int.fdiv ((TARGET_SIZE : Int) - (content.width : Int)) 2 <
           (content.width : Int) ∧
         0 ≤ (y : Int) - Int.fdiv ((TARGET_SIZE : Int) - (content.height : Int)) 2 ∧
         (y : Int) - Int.fdiv ((TARGET_SIZE : Int) - (content.height : Int)) 2 <
           (content.height : Int) then
        content.pixel
          ((x : Int) - Int.fdiv ((TARGET_SIZE : Int) - (content.width : Int)) 2).toNat
          ((y : Int) - Int.fdiv ((TARGET_SIZE : Int) - (content.height : Int)) 2).toNat
      else Pixel.clear := rfl

theorem fdiv_nonneg_eq_natDiv (w : Nat) (hw : w ≤ 256) :
    Int.fdiv ((TARGET_SIZE : Int) - (w : Int)) 2 = (((256 - w) / 2 : Nat) : Int) := by
  have hcast : (TARGET_SIZE : Int) - (w : Int) = (((256 - w : Nat)) : Int) := by
    unfold TARGET_SIZE
    omega
  rw [hcast, Int.fdiv_eq_ediv _ (by omega)]
  omega

/-- Claim C9: normalization produces a fully transparent 256 x 256 canvas
with the content pasted pixel-for-pixel at offset
((canvasSize - width) // 2, (canvasSize - height) // 2) on each axis
(integer floor division); in particular 255 x 201 content lands at
offset (0, 27). -/
theorem normalizeFrame_centering (content : Image)
    (hw : content.width ≤ 256) (hh : content.height ≤ 256) :
    (normalizeFrame content).width = 256 ∧ (normalizeFrame content).height = 256 ∧
    (∀ cx cy, cx < content.width → cy < content.height →
      (normalizeFrame content).pixel ((256 - content.width) / 2 + cx)
        ((256 - content.height) / 2 + cy) = content.pixel cx cy) ∧
    (∀ x y, x < 256 → y < 256 →
      ¬ ((256 - content.width) / 2 ≤ x ∧
         x < (256 - content.width) / 2 + content.width ∧
         (256 - content.height) / 2 ≤ y ∧
         y < (256 - content.height) / 2 + content.height) →
      (normalizeFrame content).pixel x y = Pixel.clear) ∧
    ((256 - 255) / 2 = 0 ∧ (256 - 201) / 2 = 27) := by
  have hox := fdiv_nonneg_eq_natDiv content.width hw
  have hoy := fdiv_nonneg_eq_natDiv content.height hh
  refine ⟨rfl, rfl, ?_, ?_, by decide⟩
  · intro cx cy hcx hcy
    rw [normalizeFrame_pixel, hox, hoy]
    rw [if_pos ⟨by unfold TARGET_SIZE; omega, by unfold TARGET_SIZE; omega,
      by omega, by omega, by omega, by omega⟩]
    have e1 : ((((256 - content.width) / 2 + cx : Nat) : Int) -
        (((256 - content.width) / 2 : Nat) : Int)).toNat = cx := by omega
    have e2 : ((((256 - content.height) / 2 + cy : Nat) : Int) -
        (((256 - content.height) / 2 : Nat) : Int)).toNat = cy := by omega
    rw [e1, e2]
  · intro x y hx hy hout
    rw [normalizeFrame_pixel, hox, hoy]
    rw [if_neg ?_]
    intro hin
    obtain ⟨_, _, hin1, hin2, hin3, hin4⟩ := hin
    exact hout ⟨by omega, by omega, by omega, by omega⟩

/-- Concrete 255 x 201 content image. -/
def tallImg : Image := ⟨255, 201, fun _ _ => ⟨7, 8, 9, 200⟩⟩

/-- Claim C9 witness: 255 x 201 content into the 256 canvas lands at
offset (0, 27): pixel (10, 20) of the content appears at canvas
coordinate (0 + 10, 27 + 20). -/
theorem normalizeFrame_centering_witness :
    tallImg.width ≤ 256 ∧ tallImg.height ≤ 256 ∧
    (normalizeFrame tallImg).pixel ((256 - tallImg.width) / 2 + 10)
      ((256 - tallImg.height) / 2 + 20) = tallImg.pixel 10 20 :=
  ⟨by decide, by decide,
   (normalizeFrame_centering tallImg (by decide) (by decide)).2.2.1 10 20
     (by decide) (by decide)⟩

/-- Concrete 300 x 100 fully opaque content, wider than the canvas. -/
def wideImg : Image := ⟨300, 100, fun _ _ => ⟨0, 0, 0, 255⟩⟩

/-- Claim C5 counterexample: normalization performs no size check; for
300 x 100 content (width exceeding canvasSize 256) it still produces a
256 x 256 frame, and the frame carries visible content: canvas pixel
(0, 78) is content pixel (22, 0) because the horizontal paste offset is
(256 - 300) // 2 = -22 and PIL clips the paste.  The claim says
normalization fails and produces no frame; the code produces one. -/
theorem normalizeFrame_no_size_check :
    (normalizeFrame wideImg).width = 256 ∧ (normalizeFrame wideImg).height = 256 ∧
    ((normalizeFrame wideImg).pixel 0 78).a = 255 ∧
    Int.fdiv ((TARGET_SIZE : Int) - (wideImg.width : Int)) 2 = -22 := by
  refine ⟨rfl, rfl, ?_, by decide⟩
  decide

/-- Claim C5 (amended): normalization never fails and never rejects
oversized content: for every content image it returns a 256 x 256 frame,
pasting the content pixel-for-pixel (no scaling) at the floor-division
offsets, which are negative for oversized content, and clipping to the
canvas: every content pixel whose pasted position lands inside the
canvas appears there unchanged. -/
theorem normalizeFrame_never_fails (content : Image) :
    (normalizeFrame content).width = 256 ∧ (normalizeFrame content).height = 256 ∧
    (∀ cx cy : Nat, cx < content.width → cy < content.height →
      0 ≤ (cx : Int) + Int.fdiv ((TARGET_SIZE : Int) - (content.width : Int)) 2 →
      (cx : Int) + Int.fdiv ((TARGET_SIZE : Int) - (content.width : Int)) 2 < 256 →
      0 ≤ (cy : Int) + Int.fdiv ((TARGET_SIZE : Int) - (content.height : Int)) 2 →
      (cy : Int) + Int.fdiv ((TARGET_SIZE : Int) - (content.height : Int)) 2 < 256 →
      (normalizeFrame content).pixel
        ((cx : Int) + Int.fdiv ((TARGET_SIZE : Int) - (content.width : Int)) 2).toNat
        ((cy : Int) + Int.fdiv ((TARGET_SIZE : Int) - (content.height : Int)) 2).toNat =
        content.pixel cx cy) := by
  refine ⟨rfl, rfl, ?_⟩
  intro cx cy hcx hcy h1 h2 h3 h4
  generalize hgx : Int.fdiv ((TARGET_SIZE : Int) - (content.width : Int)) 2 = ox at h1 h2 ⊢
  generalize hgy : Int.fdiv ((TARGET_SIZE : Int) - (content.height : Int)) 2 = oy at h3 h4 ⊢
  rw [normalizeFrame_pixel, hgx, hgy]
  rw [if_pos ⟨by unfold TARGET_SIZE; omega, by unfold TARGET_SIZE; omega,
    by omega, by omega, by omega, by omega⟩]
  have e1 : (((((cx : Int) + ox).toNat : Nat) : Int) - ox).toNat = cx := by omega
  have e2 : (((((cy : Int) + oy).toNat : Nat) : Int) - oy).toNat = cy := by omega
  rw [e1, e2]

/-- Claim C5 (amended) witness: the oversized 300 x 100 content has its
column 22 pasted at canvas column 0 (offset -22, clipped). -/
theorem normalizeFrame_never_fails_witness :
    (22 : Nat) < wideImg.width ∧ (0 : Nat) < wideImg.height ∧
    (normalizeFrame wideImg).pixel
      (((22 : Nat) : Int) + Int.fdiv ((TARGET_SIZE : Int) - (wideImg.width : Int)) 2).toNat
      (((0 : Nat) : Int) + Int.fdiv ((TARGET_SIZE : Int) - (wideImg.height : Int)) 2).toNat =
      wideImg.pixel 22 0 :=
  ⟨by decide, by decide,
   (normalizeFrame_never_fails wideImg).2.2 22 0 (by decide) (by decide)
     (by decide) (by decide) (by decide) (by decide)⟩

/-! ## process_pet_sprites.py: transparent crops in frame extraction -/

/-- Concrete fully transparent 456 x 300 sheet. -/
def blankSheet : Image := ⟨456, 300, fun _ _ => Pixel.clear⟩

/-- Claim C4 counterexample: in explicit-rectangle (leopard-cat) mode
there is no transparency check at all: on a fully transparent sheet the
first rectangle crop is fully transparent, yet index 0 is not skipped —
all four indices 0..3 are saved (as blank frames), contradicting the
claim that a fully transparent rectangle crop is skipped and reported. -/
theorem slice_image_no_transparency_skip :
    (∀ x y, ((blankSheet.crop 10 105 221 210).pixel x y).a = 0) ∧
    (slice_image blankSheet "leopard_cat_walk.png").map Prod.fst = [0, 1, 2, 3] := by
  constructor
  · intro x y
    unfold Image.crop blankSheet Pixel.clear
    dsimp only
    split <;> rfl
  · decide

/-- The i-th uniform strip of the configured union crop, as slice_image
builds it. -/
def stripOf (img : Image) (config : PetConfig) (i : Nat) : Image :=
  (img.crop config.bbox.x1 config.bbox.y1 config.bbox.x2 config.bbox.y2).crop
    (i * ((img.crop config.bbox.x1 config.bbox.y1 config.bbox.x2 config.bbox.y2).width / 4)) 0
    ((i + 1) * ((img.crop config.bbox.x1 config.bbox.y1 config.bbox.x2 config.bbox.y2).width / 4))
    (img.crop config.bbox.x1 config.bbox.y1 config.bbox.x2 config.bbox.y2).height

/-- Claim C4 (amended): in explicit-rectangle (leopard-cat) mode no
transparency check is made and every rectangle yields a saved frame, blank
or not; in strip mode a slice whose crop has no alpha content is skipped
silently — no report of any kind is emitted for it, the index simply
produces no output — and the remaining slices of the sheet are still
processed (a saved frame appears for exactly the indices whose strip has
content). -/
theorem slice_transparent_handling :
    (∀ (img : Image) (name : String),
      containsSub ("leopard_cat_walk".data) name.data = true →
      (slice_image img name).map Prod.fst = [0, 1, 2, 3]) ∧
    (∀ (img : Image) (name : String) (config : PetConfig),
      containsSub ("leopard_cat_walk".data) name.data = false →
      PET_CONFIGS.lookup name = some config →
      ∀ i, (i ∈ (slice_image img name).map Prod.fst ↔
        (i < 4 ∧ (stripOf img config i).getbbox ≠ none))) := by
  constructor
  · intro img name hsub
    unfold slice_image
    rw [hsub]
    rw [if_pos rfl]
    rfl
  · intro img name config hsub hlook i
    unfold slice_image
    rw [hsub]
    rw [if_neg (by simp), hlook]
    simp only [List.map_filterMap, List.mem_filterMap, List.mem_range]
    constructor
    · rintro ⟨j, hj, hsome⟩
      cases hg : (stripOf img config j).getbbox with
      | none =>
        unfold stripOf at hg
        rw [hg] at hsome
        simp at hsome
      | some bb =>
        have hji : j = i := by
          unfold stripOf at hg
          rw [hg] at hsome
          simpa using hsome
        subst hji
        exact ⟨hj, by rw [hg]; simp⟩
    · rintro ⟨hi, hne⟩
      refine ⟨i, hi, ?_⟩
      cases hg : (stripOf img config i).getbbox with
      | none => exact absurd hg hne
      | some bb =>
        unfold stripOf at hg
        rw [hg]
        simp

/-- Claim C4 (amended) witness: the fully transparent sheet under a name
containing "leopard_cat_walk" still saves all four frame indices. -/
theorem slice_transparent_handling_witness :
    containsSub ("leopard_cat_walk".data) ("leopard_cat_walk_dark.png".data) = true ∧
    (slice_image blankSheet "leopard_cat_walk_dark.png").map Prod.fst = [0, 1, 2, 3] :=
  ⟨by decide,
   slice_transparent_handling.1 blankSheet "leopard_cat_walk_dark.png" (by decide)⟩
